import Mathlib

/-!
Verification development for the stock-sonification synthesizer
(`src/main.py`).  The Python code is shallowly embedded: float arithmetic
is modelled by exact arithmetic (`ℚ` for the mapper and the playback
driver, `ℝ` for the oscillator), Python's `round`/`int` become explicit
integer-valued functions, and the mutable `StockAudioSynth` object becomes
a record with explicit state passing.
-/

/-- `SAMPLE_RATE = 44100` from the top of `src/main.py`. -/
def SAMPLE_RATE : ℕ := 44100

/-- `CHUNK = 1024`, the audio block size. -/
def CHUNK : ℕ := 1024

/-- `AMPLITUDE = 0.3`. -/
def AMPLITUDE : ℚ := 3 / 10

/-- `BASE_NOTE = 440.0`, as a real number (frequencies are real-valued). -/
noncomputable def BASE_NOTE : ℝ := 440

/-- `NOTE_RANGE = 12`: twelve semitones up and down. -/
def NOTE_RANGE : ℕ := 12

/-- `get_note_frequency(base_freq, semitones) = base_freq * 2 ** (semitones / 12)`
from `src/main.py`; the exponent is real-valued (`Real.rpow`). -/
noncomputable def get_note_frequency (base_freq : ℝ) (semitones : ℤ) : ℝ :=
  base_freq * (2 : ℝ) ^ ((semitones : ℝ) / 12)

/-- `NOTE_MAPPING = [get_note_frequency(BASE_NOTE, i) for i in range(-12, 13)]`.
The Python comprehension runs `i` over `-12 .. 12`; here the list index
`k ∈ range 25` corresponds to `i = k - 12`. -/
noncomputable def NOTE_MAPPING : List ℝ :=
  (List.range (2 * NOTE_RANGE + 1)).map
    (fun k : ℕ => get_note_frequency BASE_NOTE ((k : ℤ) - NOTE_RANGE))

/-- Python 3's built-in `round` (banker's rounding: ties go to the nearest
even integer), modelled in exact arithmetic. -/
def python_round (q : ℚ) : ℤ :=
  if q - (⌊q⌋ : ℚ) < 1 / 2 then ⌊q⌋
  else if 1 / 2 < q - (⌊q⌋ : ℚ) then ⌊q⌋ + 1
  else if ⌊q⌋ % 2 = 0 then ⌊q⌋ else ⌊q⌋ + 1

/-- Python's `int()` on a float: truncation toward zero. -/
def python_int (q : ℚ) : ℤ :=
  if 0 ≤ q then ⌊q⌋ else ⌈q⌉

/-- The normalization step of `_map_price_to_note`:
`normalized = 2 * (price - self.min_price) / self.price_range - 1`. -/
def normalized_val (price min_price price_range : ℚ) : ℚ :=
  2 * (price - min_price) / price_range - 1

/-- The semitone computation of `_map_price_to_note`:
`semitone = int(round(normalized * NOTE_RANGE))` followed by
`semitone = max(-NOTE_RANGE, min(NOTE_RANGE, semitone))`. -/
def map_semitone (price min_price price_range : ℚ) : ℤ :=
  max (-(NOTE_RANGE : ℤ))
    (min (NOTE_RANGE : ℤ)
      (python_round (normalized_val price min_price price_range * NOTE_RANGE)))

/-- `_map_price_to_note(price)` from `src/main.py`: returns `BASE_NOTE` when
`price_range == 0`, otherwise indexes `NOTE_MAPPING[semitone + NOTE_RANGE]`.
The clamp keeps the index in bounds, so the out-of-range default `0` of
`getD` is never consulted. -/
noncomputable def map_price_to_note (price min_price price_range : ℚ) : ℝ :=
  if price_range = 0 then BASE_NOTE
  else NOTE_MAPPING.getD (map_semitone price min_price price_range + NOTE_RANGE).toNat 0

/-- Python's float `%` with a positive modulus: `x - y * ⌊x / y⌋`. -/
noncomputable def float_mod (x y : ℝ) : ℝ :=
  x - y * ⌊x / y⌋

/-- The sine-block generation of `_generate_audio` (lines 124-128 of
`src/main.py`), parameterised the way the spec's `generateBlock` is:
`t = np.arange(n) / sample_rate`,
`samples = amplitude * np.sin(2 * np.pi * freq * t + phase)`, and the new
phase `(phase + 2 * np.pi * freq * n / sample_rate) % (2 * np.pi)`. -/
noncomputable def generate_block (freq : ℝ) (n : ℕ) (sample_rate : ℕ)
    (phase : ℝ) (amplitude : ℝ) : List ℝ × ℝ :=
  ((List.range n).map
      (fun i : ℕ => amplitude * Real.sin (2 * Real.pi * freq * ((i : ℝ) / (sample_rate : ℝ)) + phase)),
   float_mod (phase + 2 * Real.pi * freq * (n : ℝ) / (sample_rate : ℝ)) (2 * Real.pi))

/-- The mutable state of a `StockAudioSynth` object.  `min_price`,
`max_price` and `price_range` are unset by `__init__` and first assigned by
a successful load; they are modelled as fields initialised to `0`.
`first_value` is modelled from the spec: the baseline value for the linear
mapping policy; no such attribute exists in `src/main.py`. -/
structure SynthState where
  running : Bool
  current_freq : ℝ
  phase : ℝ
  playback_speed : ℚ
  price_data : List (String × ℚ)
  current_index : ℚ
  last_update_time : ℚ
  min_price : ℚ
  max_price : ℚ
  price_range : ℚ
  first_value : ℚ

/-- `__init__` (lines 29-37 of `src/main.py`): `running = False`,
`current_freq = BASE_NOTE`, `phase = 0.0`, `playback_speed = 1.0`,
`price_data = []`, `current_index = 0`,
`last_update_time = time.time()` (the construction instant `t0`). -/
noncomputable def initState (t0 : ℚ) : SynthState :=
  { running := false
    current_freq := BASE_NOTE
    phase := 0
    playback_speed := 1
    price_data := []
    current_index := 0
    last_update_time := t0
    min_price := 0
    max_price := 0
    price_range := 0
    first_value := 0 }

/-- Python's `min` over a non-empty list (the `[]` case never arises). -/
def list_min (l : List ℚ) : ℚ :=
  match l with
  | [] => 0
  | x :: xs => xs.foldl min x

/-- Python's `max` over a non-empty list (the `[]` case never arises). -/
def list_max (l : List ℚ) : ℚ :=
  match l with
  | [] => 0
  | x :: xs => xs.foldl max x

/-- `load_stock_data` (lines 50-72 of `src/main.py`), with the external
AKShare fetch abstracted into the `data` argument (the series of
`(timestamp, close)` rows).  An empty frame returns `(False, message)`
without touching any state; otherwise the series is stored, the price
statistics are recomputed and `current_index` is reset to `0`.
`first_value` is modelled from the spec (§3: `firstValue`, the value of the
first sample, kept for baseline-relative mapping); `src/main.py` computes
no such statistic. -/
def load_stock_data (s : SynthState) (data : List (String × ℚ)) :
    SynthState × Bool × String :=
  if data = [] then (s, false, "no data")
  else
    let prices := data.map Prod.snd
    ({ s with
        price_data := data
        min_price := list_min prices
        max_price := list_max prices
        price_range := list_max prices - list_min prices
        first_value := prices.headD 0
        current_index := 0 },
      true, "data loaded")

/-- `start_playback` (lines 74-79 of `src/main.py`):
`if not self.running and self.price_data:` flip `running` and spawn the
synthesis thread.  The Python method always returns `None`; the second
component is that (absent) error report. -/
def start_playback (s : SynthState) : SynthState × Option String :=
  if s.running = false ∧ s.price_data ≠ [] then
    ({ s with running := true }, none)
  else (s, none)

/-- `set_playback_speed` (lines 86-87 of `src/main.py`). -/
def set_playback_speed (s : SynthState) (speed : ℚ) : SynthState :=
  { s with playback_speed := speed }

/-- The position-advance portion of one `_generate_audio` iteration
(lines 111-117 of `src/main.py`), as a function of the series length, the
current fractional index, the elapsed wall-clock time and the speed:
`advance = elapsed * playback_speed * 2`,
`current_index = min(len(price_data) - 1, current_index + advance)`,
`current_idx = int(current_index)`, and if `current_idx >= len - 1` the
index is snapped to `len - 1`. -/
def step_index (len : ℕ) (idx elapsed speed : ℚ) : ℚ :=
  let idx1 := min ((len : ℚ) - 1) (idx + elapsed * speed * 2)
  if (len : ℤ) - 1 ≤ python_int idx1 then ((len : ℚ) - 1) else idx1

/-- The fractional index after a whole sequence of `_generate_audio`
iterations, each carrying its `(elapsed, speed)` pair. -/
def run_index (len : ℕ) (steps : List (ℚ × ℚ)) (idx : ℚ) : ℚ :=
  steps.foldl (fun i p => step_index len i p.1 p.2) idx

/-- The timing portion of one `_generate_audio` iteration
(lines 107-117 of `src/main.py`) at wall-clock instant `now`:
`elapsed = now - self.last_update_time`, `self.last_update_time = now`,
then the index advance of `step_index`. -/
def iter_index (s : SynthState) (now : ℚ) : SynthState :=
  { s with
      last_update_time := now
      current_index :=
        step_index s.price_data.length s.current_index
          (now - s.last_update_time) s.playback_speed }

/-- Modelled from the spec: the continuous linear mapping policy of §4.2,
which is absent from `src/main.py`.
`pctChange = firstValue == 0 ? 0 : (value - firstValue)/firstValue`, and
`frequency = clamp(baseFrequency * (1 + pctChange * sensitivity), fMin, fMax)`. -/
def linear_map_frequency (value firstValue baseFrequency sensitivity fMin fMax : ℚ) : ℚ :=
  let pctChange := if firstValue = 0 then 0 else (value - firstValue) / firstValue
  max fMin (min fMax (baseFrequency * (1 + pctChange * sensitivity)))

/-- `float_mod x y` rewritten through `Int.fract` (for `y ≠ 0`). -/
theorem float_mod_eq_mul_fract (x y : ℝ) (hy : y ≠ 0) :
    float_mod x y = y * Int.fract (x / y) := by
  unfold float_mod Int.fract
  rw [mul_sub, mul_div_cancel₀ x hy]

/-- Python's float `%` with a positive modulus is non-negative. -/
theorem float_mod_nonneg (x y : ℝ) (hy : 0 < y) : 0 ≤ float_mod x y := by
  rw [float_mod_eq_mul_fract x y (ne_of_gt hy)]
  exact mul_nonneg hy.le (Int.fract_nonneg _)

/-- Python's float `%` with a positive modulus stays below the modulus. -/
theorem float_mod_lt (x y : ℝ) (hy : 0 < y) : float_mod x y < y := by
  rw [float_mod_eq_mul_fract x y (ne_of_gt hy)]
  calc y * Int.fract (x / y) < y * 1 := by
        exact mul_lt_mul_of_pos_left (Int.fract_lt_one _) hy
    _ = y := mul_one y

/-- Reducing a phase modulo `2π` does not change the sine of any shifted
angle: the oscillator loses nothing by storing the wrapped phase. -/
theorem sin_add_float_mod (a x : ℝ) :
    Real.sin (a + float_mod x (2 * Real.pi)) = Real.sin (a + x) := by
  unfold float_mod
  have h : a + (x - 2 * Real.pi * (⌊x / (2 * Real.pi)⌋ : ℝ))
      = (a + x) + (-⌊x / (2 * Real.pi)⌋ : ℤ) * (2 * Real.pi) := by
    push_cast
    ring
  rw [h, Real.sin_add_int_mul_two_pi]

/-- Indexing a mapped `List.range` inside its bounds. -/
theorem map_range_getD (f : ℕ → ℝ) (n i : ℕ) (h : i < n) :
    ((List.range n).map f).getD i 0 = f i := by
  simp [List.getD_eq_getElem?_getD, List.getElem?_map, List.getElem?_range, h]

/-- Sample `i` of a block generated from the carried phase of a previous
block equals sample `n + i` of a block generated from the original phase. -/
theorem block_shift (f phaseIn A : ℝ) (n sr : ℕ) (hsr : 0 < sr) (i : ℕ) :
    A * Real.sin (2 * Real.pi * f * ((i : ℝ) / (sr : ℝ))
        + (generate_block f n sr phaseIn A).2)
      = A * Real.sin (2 * Real.pi * f * (((n + i : ℕ) : ℝ) / (sr : ℝ)) + phaseIn) := by
  have hsr' : ((sr : ℕ) : ℝ) ≠ 0 := ne_of_gt (Nat.cast_pos.mpr hsr)
  show A * Real.sin (2 * Real.pi * f * ((i : ℝ) / (sr : ℝ))
      + float_mod (phaseIn + 2 * Real.pi * f * (n : ℝ) / (sr : ℝ)) (2 * Real.pi)) = _
  rw [sin_add_float_mod]
  have harg : 2 * Real.pi * f * ((i : ℝ) / (sr : ℝ))
      + (phaseIn + 2 * Real.pi * f * (n : ℝ) / (sr : ℝ))
      = 2 * Real.pi * f * (((n + i : ℕ) : ℝ) / (sr : ℝ)) + phaseIn := by
    push_cast
    field_simp
    ring
  rw [harg]

set_option maxRecDepth 8000 in
/-- Claim C1: one iteration of the synthesis loop produces
`samples[i] = A * sin(2π f i / SAMPLE_RATE + phaseIn)` for every
`i < CHUNK`, and carries the phase
`(phaseIn + 2π f CHUNK / SAMPLE_RATE) mod 2π`, which always lies in
`[0, 2π)`. -/
theorem oscillator_block_formula (f phaseIn A : ℝ) (i : ℕ) (hi : i < CHUNK) :
    (generate_block f CHUNK SAMPLE_RATE phaseIn A).1.getD i 0
      = A * Real.sin (2 * Real.pi * f * (i : ℝ) / (SAMPLE_RATE : ℝ) + phaseIn)
    ∧ (generate_block f CHUNK SAMPLE_RATE phaseIn A).2
      = float_mod (phaseIn + 2 * Real.pi * f * (CHUNK : ℝ) / (SAMPLE_RATE : ℝ)) (2 * Real.pi)
    ∧ 0 ≤ (generate_block f CHUNK SAMPLE_RATE phaseIn A).2
    ∧ (generate_block f CHUNK SAMPLE_RATE phaseIn A).2 < 2 * Real.pi := by
  have h2 : (generate_block f CHUNK SAMPLE_RATE phaseIn A).2
      = float_mod (phaseIn + 2 * Real.pi * f * (CHUNK : ℝ) / (SAMPLE_RATE : ℝ)) (2 * Real.pi) := rfl
  refine ⟨?_, h2, ?_, ?_⟩
  · show ((List.range CHUNK).map
        (fun j : ℕ => A * Real.sin (2 * Real.pi * f * ((j : ℝ) / (SAMPLE_RATE : ℝ)) + phaseIn))).getD i 0
      = A * Real.sin (2 * Real.pi * f * (i : ℝ) / (SAMPLE_RATE : ℝ) + phaseIn)
    rw [map_range_getD _ _ _ hi]
    have harg : 2 * Real.pi * f * ((i : ℝ) / (SAMPLE_RATE : ℝ)) + phaseIn
        = 2 * Real.pi * f * (i : ℝ) / (SAMPLE_RATE : ℝ) + phaseIn := by
      ring
    rw [harg]
  · rw [h2]
    exact float_mod_nonneg _ _ Real.two_pi_pos
  · rw [h2]
    exact float_mod_lt _ _ Real.two_pi_pos

set_option maxRecDepth 8000 in
/-- Witness for C1 at `f = 440`, `phaseIn = 0`, `A = 1`, `i = 0`. -/
theorem oscillator_block_formula_w :
    (0 : ℕ) < CHUNK
    ∧ ((generate_block 440 CHUNK SAMPLE_RATE 0 1).1.getD 0 0
        = 1 * Real.sin (2 * Real.pi * 440 * ((0 : ℕ) : ℝ) / (SAMPLE_RATE : ℝ) + 0)
      ∧ (generate_block 440 CHUNK SAMPLE_RATE 0 1).2
        = float_mod (0 + 2 * Real.pi * 440 * (CHUNK : ℝ) / (SAMPLE_RATE : ℝ)) (2 * Real.pi)
      ∧ 0 ≤ (generate_block 440 CHUNK SAMPLE_RATE 0 1).2
      ∧ (generate_block 440 CHUNK SAMPLE_RATE 0 1).2 < 2 * Real.pi) :=
  ⟨by decide, oscillator_block_formula 440 0 1 0 (by decide)⟩

/-- Claim C2: concatenating two consecutive blocks with the phase threaded
through equals one block of twice the size generated from the original
phase (exactly, in the real-number model); in particular the first sample
of the second block is `A * sin(2π f n / sr + phaseIn)`, so the waveform
has no discontinuity at the block boundary. -/
theorem oscillator_block_continuity (f phaseIn A : ℝ) (n sr : ℕ) (hn : 0 < n) (hsr : 0 < sr) :
    (generate_block f n sr phaseIn A).1
        ++ (generate_block f n sr (generate_block f n sr phaseIn A).2 A).1
      = (generate_block f (2 * n) sr phaseIn A).1
    ∧ (generate_block f n sr (generate_block f n sr phaseIn A).2 A).1.getD 0 0
      = A * Real.sin (2 * Real.pi * f * (n : ℝ) / (sr : ℝ) + phaseIn) := by
  constructor
  · show (List.range n).map
          (fun i : ℕ => A * Real.sin (2 * Real.pi * f * ((i : ℝ) / (sr : ℝ)) + phaseIn))
        ++ (List.range n).map
          (fun i : ℕ => A * Real.sin (2 * Real.pi * f * ((i : ℝ) / (sr : ℝ))
            + (generate_block f n sr phaseIn A).2))
      = (List.range (2 * n)).map
          (fun i : ℕ => A * Real.sin (2 * Real.pi * f * ((i : ℝ) / (sr : ℝ)) + phaseIn))
    rw [show 2 * n = n + n from two_mul n, List.range_add, List.map_append, List.map_map]
    congr 1
    apply List.map_congr_left
    intro i _
    exact block_shift f phaseIn A n sr hsr i
  · show ((List.range n).map
        (fun i : ℕ => A * Real.sin (2 * Real.pi * f * ((i : ℝ) / (sr : ℝ))
          + (generate_block f n sr phaseIn A).2))).getD 0 0
      = A * Real.sin (2 * Real.pi * f * (n : ℝ) / (sr : ℝ) + phaseIn)
    rw [map_range_getD _ n 0 hn]
    refine (block_shift f phaseIn A n sr hsr 0).trans ?_
    have harg : 2 * Real.pi * f * (((n + 0 : ℕ) : ℝ) / (sr : ℝ))
        = 2 * Real.pi * f * (n : ℝ) / (sr : ℝ) := by
      push_cast
      ring
    rw [harg]

/-- Witness for C2 at `f = 1`, `phaseIn = 0`, `A = 1`, `n = 2`, `sr = 8`. -/
theorem oscillator_block_continuity_w :
    ((0 : ℕ) < 2 ∧ (0 : ℕ) < 8)
    ∧ ((generate_block 1 2 8 0 1).1
          ++ (generate_block 1 2 8 (generate_block 1 2 8 0 1).2 1).1
        = (generate_block 1 (2 * 2) 8 0 1).1
      ∧ (generate_block 1 2 8 (generate_block 1 2 8 0 1).2 1).1.getD 0 0
        = 1 * Real.sin (2 * Real.pi * 1 * ((2 : ℕ) : ℝ) / ((8 : ℕ) : ℝ) + 0)) :=
  ⟨⟨by decide, by decide⟩, oscillator_block_continuity 1 0 1 2 8 (by decide) (by decide)⟩

/-- The clamped semitone always lies in `[-NOTE_RANGE, NOTE_RANGE]`. -/
theorem map_semitone_mem (p m r : ℚ) :
    -(NOTE_RANGE : ℤ) ≤ map_semitone p m r ∧ map_semitone p m r ≤ NOTE_RANGE := by
  unfold map_semitone
  refine ⟨le_max_left _ _, max_le ?_ (min_le_left _ _)⟩
  norm_num [NOTE_RANGE]

/-- `NOTE_MAPPING[k]` is the frequency `k - 12` semitones from `BASE_NOTE`. -/
theorem NOTE_MAPPING_getD (i : ℕ) (h : i < 2 * NOTE_RANGE + 1) :
    NOTE_MAPPING.getD i 0 = get_note_frequency BASE_NOTE ((i : ℤ) - NOTE_RANGE) := by
  unfold NOTE_MAPPING
  rw [map_range_getD _ _ _ h]

/-- For a non-zero range, `_map_price_to_note` returns the equal-tempered
frequency of the clamped semitone. -/
theorem map_price_to_note_eq (p m r : ℚ) (hr : r ≠ 0) :
    map_price_to_note p m r = get_note_frequency BASE_NOTE (map_semitone p m r) := by
  unfold map_price_to_note
  rw [if_neg hr]
  have hmem := map_semitone_mem p m r
  have hlt : (map_semitone p m r + NOTE_RANGE).toNat < 2 * NOTE_RANGE + 1 := by
    simp only [NOTE_RANGE] at hmem ⊢
    omega
  rw [NOTE_MAPPING_getD _ hlt]
  congr 1
  simp only [NOTE_RANGE] at hmem ⊢
  omega

/-- At the minimum of the range, the normalized value is `-1`. -/
theorem normalized_at_min (m r : ℚ) : normalized_val m m r = -1 := by
  unfold normalized_val
  rw [sub_self]
  norm_num

/-- At the maximum of the range, the normalized value is `1`. -/
theorem normalized_at_max (m r : ℚ) (hr : r ≠ 0) : normalized_val (m + r) m r = 1 := by
  unfold normalized_val
  field_simp
  norm_num

/-- The code's semitone at the series minimum is `-12`. -/
theorem map_semitone_at_min (m r : ℚ) : map_semitone m m r = -12 := by
  unfold map_semitone
  rw [normalized_at_min]
  norm_num [python_round, NOTE_RANGE]

/-- The code's semitone at the series maximum is `12`. -/
theorem map_semitone_at_max (m r : ℚ) (hr : r ≠ 0) : map_semitone (m + r) m r = 12 := by
  unfold map_semitone
  rw [normalized_at_max m r hr]
  norm_num [python_round, NOTE_RANGE]

/-- `get_note_frequency BASE_NOTE (-12) = 220`. -/
theorem get_note_frequency_neg12 : get_note_frequency BASE_NOTE (-12) = 220 := by
  unfold get_note_frequency BASE_NOTE
  have h : (((-12 : ℤ) : ℝ)) / 12 = ((-1 : ℤ) : ℝ) := by norm_num
  rw [h, Real.rpow_intCast]
  norm_num

/-- `get_note_frequency BASE_NOTE 12 = 880`. -/
theorem get_note_frequency_pos12 : get_note_frequency BASE_NOTE 12 = 880 := by
  unfold get_note_frequency BASE_NOTE
  have h : (((12 : ℤ) : ℝ)) / 12 = ((1 : ℤ) : ℝ) := by norm_num
  rw [h, Real.rpow_intCast]
  norm_num

/-- `get_note_frequency BASE_NOTE 0 = 440`. -/
theorem get_note_frequency_zero : get_note_frequency BASE_NOTE 0 = 440 := by
  unfold get_note_frequency BASE_NOTE
  norm_num

/-- Claim C3: with a zero range the mapper returns `BASE_NOTE`; otherwise
the series minimum maps to semitone `-12` (frequency `440·2^(-12/12)`) and
the maximum to semitone `+12` (frequency `440·2^(12/12)`); for the loaded
scenario series `[(t0,100),(t1,110),(t2,90)]` the statistics are
`min = 90`, `max = 110`, `range = 20`, and the values `90`, `110`, `100`
map to `220`, `880` and `440` Hz. -/
theorem quantized_mapper_endpoints (v m r : ℚ) (hr : r ≠ 0) :
    map_price_to_note v m 0 = BASE_NOTE
    ∧ map_price_to_note m m r = BASE_NOTE * (2 : ℝ) ^ ((-12 : ℝ) / 12)
    ∧ map_price_to_note (m + r) m r = BASE_NOTE * (2 : ℝ) ^ ((12 : ℝ) / 12)
    ∧ (load_stock_data (initState 0) [("t0", 100), ("t1", 110), ("t2", 90)]).1.min_price = 90
    ∧ (load_stock_data (initState 0) [("t0", 100), ("t1", 110), ("t2", 90)]).1.max_price = 110
    ∧ (load_stock_data (initState 0) [("t0", 100), ("t1", 110), ("t2", 90)]).1.price_range = 20
    ∧ map_price_to_note 90 90 20 = 220
    ∧ map_price_to_note 110 90 20 = 880
    ∧ map_price_to_note 100 90 20 = 440 := by
  have h20 : (20 : ℚ) ≠ 0 := by norm_num
  have hmin : map_price_to_note 90 90 20 = 220 := by
    rw [map_price_to_note_eq _ _ _ h20, map_semitone_at_min, get_note_frequency_neg12]
  have hmax : map_price_to_note 110 90 20 = 880 := by
    have h110 : (110 : ℚ) = 90 + 20 := by norm_num
    rw [h110, map_price_to_note_eq _ _ _ h20, map_semitone_at_max _ _ h20,
      get_note_frequency_pos12]
  have hmid : map_price_to_note 100 90 20 = 440 := by
    have hsem : map_semitone 100 90 20 = 0 := by
      norm_num [map_semitone, normalized_val, python_round, NOTE_RANGE]
    rw [map_price_to_note_eq _ _ _ h20, hsem, get_note_frequency_zero]
  refine ⟨?_, ?_, ?_, ?_, ?_, ?_, hmin, hmax, hmid⟩
  · unfold map_price_to_note
    rw [if_pos rfl]
  · rw [map_price_to_note_eq _ _ _ hr, map_semitone_at_min]
    unfold get_note_frequency
    norm_num
  · rw [map_price_to_note_eq _ _ _ hr, map_semitone_at_max _ _ hr]
    unfold get_note_frequency
    norm_num
  · norm_num [load_stock_data, list_min, list_max, min_def, max_def, List.cons_ne_nil]
  · norm_num [load_stock_data, list_min, list_max, min_def, max_def, List.cons_ne_nil]
  · norm_num [load_stock_data, list_min, list_max, min_def, max_def, List.cons_ne_nil]

/-- Witness for C3 at `v = 100`, `m = 90`, `r = 20`. -/
theorem quantized_mapper_endpoints_w :
    (20 : ℚ) ≠ 0
    ∧ (map_price_to_note 100 90 0 = BASE_NOTE
      ∧ map_price_to_note 90 90 20 = BASE_NOTE * (2 : ℝ) ^ ((-12 : ℝ) / 12)
      ∧ map_price_to_note (90 + 20) 90 20 = BASE_NOTE * (2 : ℝ) ^ ((12 : ℝ) / 12)
      ∧ (load_stock_data (initState 0) [("t0", 100), ("t1", 110), ("t2", 90)]).1.min_price = 90
      ∧ (load_stock_data (initState 0) [("t0", 100), ("t1", 110), ("t2", 90)]).1.max_price = 110
      ∧ (load_stock_data (initState 0) [("t0", 100), ("t1", 110), ("t2", 90)]).1.price_range = 20
      ∧ map_price_to_note 90 90 20 = 220
      ∧ map_price_to_note 110 90 20 = 880
      ∧ map_price_to_note 100 90 20 = 440) :=
  ⟨by norm_num, quantized_mapper_endpoints 100 90 20 (by norm_num)⟩

/-- Python 3's `round` sends an exact half-integer `k + 1/2` to the nearest
even integer: `k` when `k` is even, `k + 1` when `k` is odd. -/
theorem python_round_half (k : ℤ) :
    python_round ((k : ℚ) + 1 / 2) = if k % 2 = 0 then k else k + 1 := by
  unfold python_round
  have hf : ⌊(k : ℚ) + 1 / 2⌋ = k := by
    rw [add_comm, Int.floor_add_int]
    norm_num
  rw [hf]
  have he : (k : ℚ) + 1 / 2 - (k : ℚ) = 1 / 2 := by ring
  rw [he]
  norm_num

/-- Python 3's `round` on an exact integer is the identity. -/
theorem python_round_intCast (k : ℤ) : python_round (k : ℚ) = k := by
  unfold python_round
  rw [Int.floor_intCast, sub_self]
  norm_num

/-- Distinct semitone indexes give distinct equal-tempered frequencies. -/
theorem get_note_frequency_injective :
    Function.Injective (fun z : ℤ => get_note_frequency BASE_NOTE z) := by
  intro a b hab
  simp only [get_note_frequency] at hab
  have h440 : BASE_NOTE ≠ 0 := by
    unfold BASE_NOTE
    norm_num
  have h2 : (2 : ℝ) ^ ((a : ℝ) / 12) = (2 : ℝ) ^ ((b : ℝ) / 12) := mul_left_cancel₀ h440 hab
  have h12 : (1 : ℝ) < 2 := one_lt_two
  have hle1 : (a : ℝ) / 12 ≤ (b : ℝ) / 12 := (Real.rpow_le_rpow_left_iff h12).mp h2.le
  have hle2 : (b : ℝ) / 12 ≤ (a : ℝ) / 12 := (Real.rpow_le_rpow_left_iff h12).mp h2.ge
  have hab2 : (a : ℝ) = (b : ℝ) := by linarith
  exact_mod_cast hab2

/-- Claim C4 (amended): the semitone is `round(normalized·N)` clamped to
`[-N, N]`, where `round` is Python 3's bankers rounding, so an exact tie
`k + 1/2` rounds to the nearest even integer (`k` for even `k`, `k + 1`
for odd `k`), not away from zero; the semitone always lies in `[-N, N]`,
every semitone in `[-N, N]` is attained, and distinct semitones give
distinct frequencies, so the mapper still produces exactly `2N + 1`
distinct output pitches. -/
theorem quantized_mapper_rounding (v m r : ℚ) (k s : ℤ) (hr : 0 < r)
    (hs1 : -(NOTE_RANGE : ℤ) ≤ s) (hs2 : s ≤ NOTE_RANGE)
    (hk : normalized_val v m r * NOTE_RANGE = (k : ℚ) + 1 / 2) :
    map_semitone v m r
      = max (-(NOTE_RANGE : ℤ)) (min (NOTE_RANGE : ℤ) (if k % 2 = 0 then k else k + 1))
    ∧ (-(NOTE_RANGE : ℤ) ≤ map_semitone v m r ∧ map_semitone v m r ≤ NOTE_RANGE)
    ∧ map_semitone (m + r * ((s : ℚ) + NOTE_RANGE) / (2 * NOTE_RANGE)) m r = s
    ∧ Function.Injective (fun z : ℤ => get_note_frequency BASE_NOTE z) := by
  refine ⟨?_, map_semitone_mem v m r, ?_, get_note_frequency_injective⟩
  · unfold map_semitone
    rw [hk, python_round_half]
  · have hr' : r ≠ 0 := ne_of_gt hr
    have hn : normalized_val (m + r * ((s : ℚ) + NOTE_RANGE) / (2 * NOTE_RANGE)) m r
        = (s : ℚ) / NOTE_RANGE := by
      unfold normalized_val
      have h24 : ((NOTE_RANGE : ℚ)) ≠ 0 := by norm_num [NOTE_RANGE]
      field_simp
      ring
    unfold map_semitone
    rw [hn]
    have hd : (s : ℚ) / NOTE_RANGE * NOTE_RANGE = (s : ℚ) := by
      have h12 : ((NOTE_RANGE : ℚ)) ≠ 0 := by norm_num [NOTE_RANGE]
      field_simp
    rw [hd, python_round_intCast]
    simp only [NOTE_RANGE] at hs1 hs2 ⊢
    omega

/-- Witness for C4 (amended) at `v = 25/2`, `m = 0`, `r = 24`, `k = 0`,
`s = 5`. -/
theorem quantized_mapper_rounding_w :
    ((0 : ℚ) < 24 ∧ -(NOTE_RANGE : ℤ) ≤ 5 ∧ (5 : ℤ) ≤ NOTE_RANGE
      ∧ normalized_val (25 / 2) 0 24 * NOTE_RANGE = ((0 : ℤ) : ℚ) + 1 / 2)
    ∧ (map_semitone (25 / 2) 0 24
        = max (-(NOTE_RANGE : ℤ))
            (min (NOTE_RANGE : ℤ) (if (0 : ℤ) % 2 = 0 then 0 else 0 + 1))
      ∧ (-(NOTE_RANGE : ℤ) ≤ map_semitone (25 / 2) 0 24
        ∧ map_semitone (25 / 2) 0 24 ≤ NOTE_RANGE)
      ∧ map_semitone (0 + 24 * (((5 : ℤ) : ℚ) + NOTE_RANGE) / (2 * NOTE_RANGE)) 0 24 = 5
      ∧ Function.Injective (fun z : ℤ => get_note_frequency BASE_NOTE z)) :=
  ⟨⟨by norm_num, by norm_num [NOTE_RANGE], by norm_num [NOTE_RANGE],
      by norm_num [normalized_val, NOTE_RANGE]⟩,
    quantized_mapper_rounding (25 / 2) 0 24 0 5 (by norm_num)
      (by norm_num [NOTE_RANGE]) (by norm_num [NOTE_RANGE])
      (by norm_num [normalized_val, NOTE_RANGE])⟩

/-- Counterexample to C4 as stated: at `price = 12.5`, `min = 0`,
`range = 24` the product `normalized * NOTE_RANGE` is exactly `0 + 1/2`,
yet the code's semitone is `0`, not `0 + 1`: Python 3 rounds the tie to
even rather than away from zero. -/
theorem quantized_mapper_rounding_cex :
    normalized_val (25 / 2) 0 24 * NOTE_RANGE = (0 : ℚ) + 1 / 2
    ∧ map_semitone (25 / 2) 0 24 = 0
    ∧ (0 : ℤ) ≠ 0 + 1 := by
  refine ⟨by norm_num [normalized_val, NOTE_RANGE], ?_, by norm_num⟩
  norm_num [map_semitone, normalized_val, python_round, NOTE_RANGE]

/-- A left fold by `min` never exceeds its initial accumulator. -/
theorem foldl_min_le_init (l : List ℚ) : ∀ a : ℚ, l.foldl min a ≤ a := by
  induction l with
  | nil => intro a; exact le_refl a
  | cons b t ih =>
    intro a
    exact le_trans (ih (min a b)) (min_le_left a b)

/-- A left fold by `min` never exceeds any list element. -/
theorem foldl_min_le_mem (l : List ℚ) : ∀ a x : ℚ, x ∈ l → l.foldl min a ≤ x := by
  induction l with
  | nil => intro a x hx; exact absurd hx (List.not_mem_nil x)
  | cons b t ih =>
    intro a x hx
    rcases List.mem_cons.mp hx with rfl | hx'
    · exact le_trans (foldl_min_le_init t (min a x)) (min_le_right a x)
    · exact ih (min a b) x hx'

/-- A left fold by `min` is the accumulator or one of the elements. -/
theorem foldl_min_mem (l : List ℚ) : ∀ a : ℚ, l.foldl min a = a ∨ l.foldl min a ∈ l := by
  induction l with
  | nil => intro a; exact Or.inl rfl
  | cons b t ih =>
    intro a
    rcases ih (min a b) with h | h
    · rcases min_choice a b with hab | hab
      · exact Or.inl (h.trans hab)
      · refine Or.inr ?_
        show List.foldl min (min a b) t ∈ b :: t
        rw [h, hab]
        exact List.mem_cons_self b t
    · exact Or.inr (List.mem_cons_of_mem b h)

/-- A left fold by `max` is at least its initial accumulator. -/
theorem foldl_max_ge_init (l : List ℚ) : ∀ a : ℚ, a ≤ l.foldl max a := by
  induction l with
  | nil => intro a; exact le_refl a
  | cons b t ih =>
    intro a
    exact le_trans (le_max_left a b) (ih (max a b))

/-- A left fold by `max` is at least any list element. -/
theorem foldl_max_ge_mem (l : List ℚ) : ∀ a x : ℚ, x ∈ l → x ≤ l.foldl max a := by
  induction l with
  | nil => intro a x hx; exact absurd hx (List.not_mem_nil x)
  | cons b t ih =>
    intro a x hx
    rcases List.mem_cons.mp hx with rfl | hx'
    · exact le_trans (le_max_right a x) (foldl_max_ge_init t (max a x))
    · exact ih (max a b) x hx'

/-- A left fold by `max` is the accumulator or one of the elements. -/
theorem foldl_max_mem (l : List ℚ) : ∀ a : ℚ, l.foldl max a = a ∨ l.foldl max a ∈ l := by
  induction l with
  | nil => intro a; exact Or.inl rfl
  | cons b t ih =>
    intro a
    rcases ih (max a b) with h | h
    · rcases max_choice a b with hab | hab
      · exact Or.inl (h.trans hab)
      · refine Or.inr ?_
        show List.foldl max (max a b) t ∈ b :: t
        rw [h, hab]
        exact List.mem_cons_self b t
    · exact Or.inr (List.mem_cons_of_mem b h)

/-- `list_min` bounds every element of the list from below. -/
theorem list_min_le (l : List ℚ) (x : ℚ) (hx : x ∈ l) : list_min l ≤ x := by
  cases l with
  | nil => exact absurd hx (List.not_mem_nil x)
  | cons a t =>
    rcases List.mem_cons.mp hx with rfl | hx'
    · exact foldl_min_le_init t x
    · exact foldl_min_le_mem t a x hx'

/-- `list_min` of a non-empty list is one of its elements. -/
theorem list_min_mem (l : List ℚ) (h : l ≠ []) : list_min l ∈ l := by
  cases l with
  | nil => exact absurd rfl h
  | cons a t =>
    rcases foldl_min_mem t a with h' | h'
    · show List.foldl min a t ∈ a :: t
      rw [h']
      exact List.mem_cons_self a t
    · exact List.mem_cons_of_mem a h'

/-- `list_max` bounds every element of the list from above. -/
theorem list_max_ge (l : List ℚ) (x : ℚ) (hx : x ∈ l) : x ≤ list_max l := by
  cases l with
  | nil => exact absurd hx (List.not_mem_nil x)
  | cons a t =>
    rcases List.mem_cons.mp hx with rfl | hx'
    · exact foldl_max_ge_init t x
    · exact foldl_max_ge_mem t a x hx'

/-- `list_max` of a non-empty list is one of its elements. -/
theorem list_max_mem (l : List ℚ) (h : l ≠ []) : list_max l ∈ l := by
  cases l with
  | nil => exact absurd rfl h
  | cons a t =>
    rcases foldl_max_mem t a with h' | h'
    · show List.foldl max a t ∈ a :: t
      rw [h']
      exact List.mem_cons_self a t
    · exact List.mem_cons_of_mem a h'

/-- Claim C6: loading an empty series fails (result `False` with a message)
and leaves the whole prior state untouched; loading a non-empty series
succeeds, replaces the series, recomputes `min_price` (a lower bound of
the prices attained by one of them), `max_price` (an upper bound attained
by one of them), `price_range = max - min` and `first_value` (the first
price, modelled from the spec), and resets `current_index` to `0`. -/
theorem load_stock_data_behavior (s : SynthState) (data : List (String × ℚ))
    (h : data ≠ []) :
    load_stock_data s [] = (s, false, "no data")
    ∧ (load_stock_data s data).2.1 = true
    ∧ (load_stock_data s data).1.price_data = data
    ∧ (load_stock_data s data).1.min_price = list_min (data.map Prod.snd)
    ∧ (load_stock_data s data).1.max_price = list_max (data.map Prod.snd)
    ∧ (load_stock_data s data).1.price_range
        = list_max (data.map Prod.snd) - list_min (data.map Prod.snd)
    ∧ (load_stock_data s data).1.first_value = (data.map Prod.snd).headD 0
    ∧ (load_stock_data s data).1.current_index = 0
    ∧ (∀ x ∈ data.map Prod.snd, (load_stock_data s data).1.min_price ≤ x)
    ∧ (load_stock_data s data).1.min_price ∈ data.map Prod.snd
    ∧ (∀ x ∈ data.map Prod.snd, x ≤ (load_stock_data s data).1.max_price)
    ∧ (load_stock_data s data).1.max_price ∈ data.map Prod.snd := by
  have hmapne : data.map Prod.snd ≠ [] := by
    intro hc
    exact h (List.map_eq_nil_iff.mp hc)
  have hload : load_stock_data s data
      = ({ s with
            price_data := data
            min_price := list_min (data.map Prod.snd)
            max_price := list_max (data.map Prod.snd)
            price_range := list_max (data.map Prod.snd) - list_min (data.map Prod.snd)
            first_value := (data.map Prod.snd).headD 0
            current_index := 0 },
          true, "data loaded") := by
    unfold load_stock_data
    rw [if_neg h]
  rw [hload]
  refine ⟨rfl, rfl, rfl, rfl, rfl, rfl, rfl, rfl, ?_, ?_, ?_, ?_⟩
  · intro x hx
    exact list_min_le _ x hx
  · exact list_min_mem _ hmapne
  · intro x hx
    exact list_max_ge _ x hx
  · exact list_max_mem _ hmapne

/-- Witness for C6 at `s = initState 0`, `data = [("a", 3), ("b", 1)]`. -/
theorem load_stock_data_behavior_w :
    ([("a", 3), ("b", 1)] : List (String × ℚ)) ≠ []
    ∧ (load_stock_data (initState 0) [] = (initState 0, false, "no data")
      ∧ (load_stock_data (initState 0) [("a", 3), ("b", 1)]).2.1 = true
      ∧ (load_stock_data (initState 0) [("a", 3), ("b", 1)]).1.price_data = [("a", 3), ("b", 1)]
      ∧ (load_stock_data (initState 0) [("a", 3), ("b", 1)]).1.min_price
          = list_min ([("a", 3), ("b", 1)].map Prod.snd)
      ∧ (load_stock_data (initState 0) [("a", 3), ("b", 1)]).1.max_price
          = list_max ([("a", 3), ("b", 1)].map Prod.snd)
      ∧ (load_stock_data (initState 0) [("a", 3), ("b", 1)]).1.price_range
          = list_max ([("a", 3), ("b", 1)].map Prod.snd)
            - list_min ([("a", 3), ("b", 1)].map Prod.snd)
      ∧ (load_stock_data (initState 0) [("a", 3), ("b", 1)]).1.first_value
          = ([("a", 3), ("b", 1)].map Prod.snd).headD 0
      ∧ (load_stock_data (initState 0) [("a", 3), ("b", 1)]).1.current_index = 0
      ∧ (∀ x ∈ [("a", 3), ("b", 1)].map Prod.snd,
          (load_stock_data (initState 0) [("a", 3), ("b", 1)]).1.min_price ≤ x)
      ∧ (load_stock_data (initState 0) [("a", 3), ("b", 1)]).1.min_price
          ∈ [("a", 3), ("b", 1)].map Prod.snd
      ∧ (∀ x ∈ [("a", 3), ("b", 1)].map Prod.snd,
          x ≤ (load_stock_data (initState 0) [("a", 3), ("b", 1)]).1.max_price)
      ∧ (load_stock_data (initState 0) [("a", 3), ("b", 1)]).1.max_price
          ∈ [("a", 3), ("b", 1)].map Prod.snd) :=
  ⟨by simp, load_stock_data_behavior (initState 0) [("a", 3), ("b", 1)] (by simp)⟩

/-- `start_playback` changes at most the `running` flag and reports no
error: every other field is preserved in both branches. -/
theorem start_playback_fields (s : SynthState) :
    (start_playback s).1.current_index = s.current_index
    ∧ (start_playback s).1.playback_speed = s.playback_speed
    ∧ (start_playback s).1.price_data = s.price_data
    ∧ (start_playback s).1.last_update_time = s.last_update_time
    ∧ (start_playback s).1.phase = s.phase
    ∧ (start_playback s).2 = none := by
  unfold start_playback
  split
  · exact ⟨rfl, rfl, rfl, rfl, rfl, rfl⟩
  · exact ⟨rfl, rfl, rfl, rfl, rfl, rfl⟩

/-- Claim C7 (amended): `start_playback` with no loaded series is a silent
no-op — it returns `None` rather than any error report and leaves the state
(including `running = false`) unchanged; when already running it is a no-op
(no second synthesis thread is spawned since the state is untouched); from
a loaded, non-running state it only flips `running` to `true`. -/
theorem start_playback_behavior (s : SynthState) :
    (s.price_data = [] → start_playback s = (s, none))
    ∧ (s.running = true → start_playback s = (s, none))
    ∧ (s.running = false → s.price_data ≠ [] →
        start_playback s = ({ s with running := true }, none))
    ∧ (start_playback s).2 = none := by
  refine ⟨?_, ?_, ?_, (start_playback_fields s).2.2.2.2.2⟩
  · intro hd
    unfold start_playback
    rw [if_neg]
    intro hc
    exact hc.2 hd
  · intro hr
    unfold start_playback
    rw [if_neg]
    intro hc
    rw [hr] at hc
    exact absurd hc.1 (by simp)
  · intro hr hd
    unfold start_playback
    rw [if_pos ⟨hr, hd⟩]

/-- Witness for C7 (amended) at the freshly constructed state, which has no
series loaded. -/
theorem start_playback_behavior_w :
    (initState 0).price_data = []
    ∧ start_playback (initState 0) = (initState 0, none) :=
  ⟨rfl, (start_playback_behavior (initState 0)).1 rfl⟩

/-- Counterexample to C7 as stated: calling `start_playback` on a state
with no loaded series returns `None` — there is no `StateError` (or any
other) failure result in the code; the call is a silent no-op. -/
theorem start_playback_cex :
    (initState 0).price_data = []
    ∧ (start_playback (initState 0)).2 = none
    ∧ (start_playback (initState 0)).1.running = false := by
  have hneg : ¬((initState 0).running = false ∧ (initState 0).price_data ≠ []) := by
    intro hc
    exact hc.2 rfl
  refine ⟨rfl, ?_, ?_⟩
  · unfold start_playback
    rw [if_neg hneg]
  · unfold start_playback
    rw [if_neg hneg]
    rfl

/-- Claim C8 (amended): a successful load resets `current_index` to `0` but
leaves the oscillator `phase` untouched, and `start_playback` resets
neither `current_index` nor `phase`; the phase is only ever set to `0` at
object construction, so it carries over from one loaded session into the
next. -/
theorem load_start_reset_behavior (s : SynthState) (data : List (String × ℚ)) (t0 : ℚ)
    (h : data ≠ []) :
    (load_stock_data s data).1.current_index = 0
    ∧ (load_stock_data s data).1.phase = s.phase
    ∧ (start_playback s).1.current_index = s.current_index
    ∧ (start_playback s).1.phase = s.phase
    ∧ (initState t0).phase = 0 := by
  have hf := start_playback_fields s
  have hload : (load_stock_data s data).1.current_index = 0
      ∧ (load_stock_data s data).1.phase = s.phase := by
    unfold load_stock_data
    rw [if_neg h]
    exact ⟨rfl, rfl⟩
  exact ⟨hload.1, hload.2, hf.1, hf.2.2.2.2.1, rfl⟩

/-- Witness for C8 (amended) at `s = initState 5`, `data = [("t", 100)]`,
`t0 = 0`. -/
theorem load_start_reset_behavior_w :
    ([("t", 100)] : List (String × ℚ)) ≠ []
    ∧ ((load_stock_data (initState 5) [("t", 100)]).1.current_index = 0
      ∧ (load_stock_data (initState 5) [("t", 100)]).1.phase = (initState 5).phase
      ∧ (start_playback (initState 5)).1.current_index = (initState 5).current_index
      ∧ (start_playback (initState 5)).1.phase = (initState 5).phase
      ∧ (initState 0).phase = 0) :=
  ⟨by simp, load_start_reset_behavior (initState 5) [("t", 100)] 0 (by simp)⟩

/-- Counterexample to C8 as stated: loading a non-empty series into a state
whose phase is `1` succeeds but leaves the phase at `1 ≠ 0`, and starting
playback on a loaded state whose position is `3` leaves the position at
`3 ≠ 0` — neither call resets them. -/
theorem load_start_reset_cex :
    (load_stock_data { initState 0 with phase := 1 } [("t", 100)]).2.1 = true
    ∧ (load_stock_data { initState 0 with phase := 1 } [("t", 100)]).1.phase = 1
    ∧ (1 : ℝ) ≠ 0
    ∧ (start_playback
        { (load_stock_data (initState 0) [("t", 100)]).1 with
            current_index := 3 }).1.current_index = 3
    ∧ (3 : ℚ) ≠ 0 := by
  refine ⟨rfl, rfl, by norm_num, ?_, by norm_num⟩
  unfold start_playback
  rw [if_pos]
  refine ⟨rfl, ?_⟩
  unfold load_stock_data
  rw [if_neg (by simp)]
  simp

/-- One position-advance step either snaps to the last index or is the
clamped advanced index. -/
theorem step_index_cases (len : ℕ) (idx e sp : ℚ) :
    step_index len idx e sp = (len : ℚ) - 1
    ∨ step_index len idx e sp = min ((len : ℚ) - 1) (idx + e * sp * 2) := by
  simp only [step_index]
  split
  · exact Or.inl rfl
  · exact Or.inr rfl

/-- One position-advance step with non-negative advance keeps the index
monotone and inside `[0, len - 1]`. -/
theorem step_index_bounds (len : ℕ) (idx e sp : ℚ)
    (h0 : 0 ≤ idx) (h1 : idx ≤ (len : ℚ) - 1) (he : 0 ≤ e) (hsp : 0 ≤ sp) :
    idx ≤ step_index len idx e sp
    ∧ 0 ≤ step_index len idx e sp
    ∧ step_index len idx e sp ≤ (len : ℚ) - 1 := by
  have hadv : 0 ≤ e * sp * 2 := by positivity
  have hi1 : idx ≤ min ((len : ℚ) - 1) (idx + e * sp * 2) :=
    le_min h1 (le_add_of_nonneg_right hadv)
  have hi2 : min ((len : ℚ) - 1) (idx + e * sp * 2) ≤ (len : ℚ) - 1 := min_le_left _ _
  rcases step_index_cases len idx e sp with hc | hc <;> rw [hc]
  · exact ⟨h1, by linarith, le_refl _⟩
  · exact ⟨hi1, le_trans h0 hi1, hi2⟩

/-- The invariant of the synthesis loop's position over any sequence of
iterations: monotone, and confined to `[0, len - 1]`. -/
theorem run_index_invariant (len : ℕ) (steps : List (ℚ × ℚ)) :
    ∀ idx : ℚ, (∀ p ∈ steps, 0 ≤ p.1 ∧ 0 ≤ p.2) → 0 ≤ idx → idx ≤ (len : ℚ) - 1 →
      idx ≤ run_index len steps idx
      ∧ 0 ≤ run_index len steps idx
      ∧ run_index len steps idx ≤ (len : ℚ) - 1 := by
  induction steps with
  | nil =>
    intro idx _ h0 h1
    exact ⟨le_refl idx, h0, h1⟩
  | cons p rest ih =>
    intro idx hmem h0 h1
    have hp := hmem p (List.mem_cons_self p rest)
    have hstep := step_index_bounds len idx p.1 p.2 h0 h1 hp.1 hp.2
    have hrest := ih (step_index len idx p.1 p.2)
      (fun q hq => hmem q (List.mem_cons_of_mem p hq)) hstep.2.1 hstep.2.2
    have hco : run_index len (p :: rest) idx
        = run_index len rest (step_index len idx p.1 p.2) := rfl
    rw [hco]
    exact ⟨le_trans hstep.1 hrest.1, hrest.2.1, hrest.2.2⟩

/-- Claim C5: over any sequence of synthesis-loop iterations with
non-negative elapsed times and positive speeds, the playback position stays
in `[0, len - 1]`, is monotonically non-decreasing along every prefix of
the run, and once it reaches `len - 1` it stays there (no wrap-around, no
out-of-range index). -/
theorem playback_position_invariant (len : ℕ) (steps : List (ℚ × ℚ)) (idx : ℚ)
    (hlen : 1 ≤ len) (hsteps : ∀ p ∈ steps, 0 ≤ p.1 ∧ 0 < p.2)
    (h0 : 0 ≤ idx) (h1 : idx ≤ (len : ℚ) - 1) :
    (0 ≤ run_index len steps idx ∧ run_index len steps idx ≤ (len : ℚ) - 1)
    ∧ (∀ a b : List (ℚ × ℚ), steps = a ++ b →
        run_index len a idx ≤ run_index len steps idx)
    ∧ (∀ a b : List (ℚ × ℚ), steps = a ++ b → run_index len a idx = (len : ℚ) - 1 →
        run_index len steps idx = (len : ℚ) - 1) := by
  have hsteps' : ∀ p ∈ steps, 0 ≤ p.1 ∧ 0 ≤ p.2 :=
    fun p hp => ⟨(hsteps p hp).1, (hsteps p hp).2.le⟩
  have hmain := run_index_invariant len steps idx hsteps' h0 h1
  refine ⟨⟨hmain.2.1, hmain.2.2⟩, ?_, ?_⟩
  · intro a b hab
    subst hab
    have ha : ∀ p ∈ a, 0 ≤ p.1 ∧ 0 ≤ p.2 :=
      fun p hp => hsteps' p (List.mem_append_left b hp)
    have hb : ∀ p ∈ b, 0 ≤ p.1 ∧ 0 ≤ p.2 :=
      fun p hp => hsteps' p (List.mem_append_right a hp)
    have hA := run_index_invariant len a idx ha h0 h1
    have happ : run_index len (a ++ b) idx = run_index len b (run_index len a idx) := by
      unfold run_index
      rw [List.foldl_append]
    rw [happ]
    exact (run_index_invariant len b (run_index len a idx) hb hA.2.1 hA.2.2).1
  · intro a b hab heq
    subst hab
    have hb : ∀ p ∈ b, 0 ≤ p.1 ∧ 0 ≤ p.2 :=
      fun p hp => hsteps' p (List.mem_append_right a hp)
    have happ : run_index len (a ++ b) idx = run_index len b (run_index len a idx) := by
      unfold run_index
      rw [List.foldl_append]
    have hl1 : (1 : ℚ) ≤ (len : ℚ) := by exact_mod_cast hlen
    have hB := run_index_invariant len b ((len : ℚ) - 1) hb (by linarith) (le_refl _)
    rw [happ, heq]
    exact le_antisymm hB.2.2 hB.1

/-- Witness for C5 at `len = 5`, `steps = [(1, 1)]`, `idx = 0`. -/
theorem playback_position_invariant_w :
    ((1 : ℕ) ≤ 5 ∧ (∀ p ∈ ([(1, 1)] : List (ℚ × ℚ)), 0 ≤ p.1 ∧ 0 < p.2)
      ∧ (0 : ℚ) ≤ 0 ∧ (0 : ℚ) ≤ (5 : ℕ) - 1)
    ∧ ((0 ≤ run_index 5 [(1, 1)] 0 ∧ run_index 5 [(1, 1)] 0 ≤ ((5 : ℕ) : ℚ) - 1)
      ∧ (∀ a b : List (ℚ × ℚ), [(1, 1)] = a ++ b →
          run_index 5 a 0 ≤ run_index 5 [(1, 1)] 0)
      ∧ (∀ a b : List (ℚ × ℚ), [(1, 1)] = a ++ b →
          run_index 5 a 0 = ((5 : ℕ) : ℚ) - 1 →
          run_index 5 [(1, 1)] 0 = ((5 : ℕ) : ℚ) - 1)) :=
  ⟨⟨by norm_num,
      by
        intro p hp
        rw [List.mem_singleton] at hp
        subst hp
        norm_num,
      by norm_num, by norm_num⟩,
    playback_position_invariant 5 [(1, 1)] 0 (by norm_num)
      (by
        intro p hp
        rw [List.mem_singleton] at hp
        subst hp
        norm_num)
      (by norm_num) (by norm_num)⟩

/-- From position `0`, one step advances by exactly `elapsed·speed·2`,
clamped to the last index. -/
theorem step_index_zero (len : ℕ) (e sp : ℚ) (hlen : 1 ≤ len) (hadv : 0 ≤ e * sp * 2) :
    step_index len 0 e sp = min ((len : ℚ) - 1) (e * sp * 2) := by
  have hl1 : (1 : ℚ) ≤ (len : ℚ) := by exact_mod_cast hlen
  have h0len : (0 : ℚ) ≤ (len : ℚ) - 1 := by linarith
  have hx0 : 0 ≤ min ((len : ℚ) - 1) (0 + e * sp * 2) := by
    rw [zero_add]
    exact le_min h0len hadv
  simp only [step_index]
  split
  · next hcond =>
    have hpi : python_int (min ((len : ℚ) - 1) (0 + e * sp * 2))
        = ⌊min ((len : ℚ) - 1) (0 + e * sp * 2)⌋ := by
      unfold python_int
      rw [if_pos hx0]
    rw [hpi] at hcond
    have hle : (((len : ℤ) - 1 : ℤ) : ℚ) ≤ min ((len : ℚ) - 1) (0 + e * sp * 2) :=
      Int.le_floor.mp hcond
    have hcast : (((len : ℤ) - 1 : ℤ) : ℚ) = (len : ℚ) - 1 := by push_cast; ring
    rw [hcast] at hle
    have hge : min ((len : ℚ) - 1) (0 + e * sp * 2) ≤ (len : ℚ) - 1 := min_le_left _ _
    have heq : min ((len : ℚ) - 1) (0 + e * sp * 2) = (len : ℚ) - 1 := le_antisymm hge hle
    rw [zero_add] at heq
    rw [heq]
  · next hcond =>
    rw [zero_add]

/-- Claim C10: `last_update_time` is stamped at construction and is not
reset by `start_playback`; therefore the first loop iteration, run at
wall-clock instant `last_update_time + T` (i.e. `T` seconds after the
stamp), advances the position from `0` by `T·speed·2` in one step, clamped
to `len - 1`; the iteration then re-stamps `last_update_time`. -/
theorem start_timer_not_reset (s : SynthState) (T : ℚ) (hT : 0 ≤ T)
    (hsp : 0 < s.playback_speed) (hidx : s.current_index = 0)
    (hlen : 1 ≤ s.price_data.length) :
    (∀ t0 : ℚ, (initState t0).last_update_time = t0)
    ∧ (start_playback s).1.last_update_time = s.last_update_time
    ∧ (iter_index (start_playback s).1 (s.last_update_time + T)).last_update_time
        = s.last_update_time + T
    ∧ (iter_index (start_playback s).1 (s.last_update_time + T)).current_index
        = min ((s.price_data.length : ℚ) - 1) (T * s.playback_speed * 2) := by
  have hf := start_playback_fields s
  refine ⟨fun t0 => rfl, hf.2.2.2.1, ?_, ?_⟩
  · simp only [iter_index]
  · simp only [iter_index]
    rw [hf.1, hf.2.1, hf.2.2.1, hf.2.2.2.1, hidx]
    have helapsed : s.last_update_time + T - s.last_update_time = T := by ring
    rw [helapsed]
    exact step_index_zero s.price_data.length T s.playback_speed hlen
      (mul_nonneg (mul_nonneg hT hsp.le) (by norm_num))

/-- Witness for C10 at the state obtained by loading five samples into a
fresh synth, with `T = 1`. -/
theorem start_timer_not_reset_w :
    ((0 : ℚ) ≤ 1
      ∧ 0 < (load_stock_data (initState 0)
          [("a", 1), ("b", 2), ("c", 3), ("d", 4), ("e", 5)]).1.playback_speed
      ∧ (load_stock_data (initState 0)
          [("a", 1), ("b", 2), ("c", 3), ("d", 4), ("e", 5)]).1.current_index = 0
      ∧ 1 ≤ (load_stock_data (initState 0)
          [("a", 1), ("b", 2), ("c", 3), ("d", 4), ("e", 5)]).1.price_data.length)
    ∧ ((∀ t0 : ℚ, (initState t0).last_update_time = t0)
      ∧ (start_playback (load_stock_data (initState 0)
            [("a", 1), ("b", 2), ("c", 3), ("d", 4), ("e", 5)]).1).1.last_update_time
          = (load_stock_data (initState 0)
            [("a", 1), ("b", 2), ("c", 3), ("d", 4), ("e", 5)]).1.last_update_time
      ∧ (iter_index (start_playback (load_stock_data (initState 0)
            [("a", 1), ("b", 2), ("c", 3), ("d", 4), ("e", 5)]).1).1
            ((load_stock_data (initState 0)
              [("a", 1), ("b", 2), ("c", 3), ("d", 4), ("e", 5)]).1.last_update_time
              + 1)).last_update_time
          = (load_stock_data (initState 0)
            [("a", 1), ("b", 2), ("c", 3), ("d", 4), ("e", 5)]).1.last_update_time + 1
      ∧ (iter_index (start_playback (load_stock_data (initState 0)
            [("a", 1), ("b", 2), ("c", 3), ("d", 4), ("e", 5)]).1).1
            ((load_stock_data (initState 0)
              [("a", 1), ("b", 2), ("c", 3), ("d", 4), ("e", 5)]).1.last_update_time
              + 1)).current_index
          = min (((load_stock_data (initState 0)
              [("a", 1), ("b", 2), ("c", 3), ("d", 4), ("e", 5)]).1.price_data.length : ℚ)
              - 1)
            (1 * (load_stock_data (initState 0)
              [("a", 1), ("b", 2), ("c", 3), ("d", 4), ("e", 5)]).1.playback_speed * 2)) :=
  ⟨⟨by norm_num, by norm_num [load_stock_data, initState, List.cons_ne_nil],
      by norm_num [load_stock_data, List.cons_ne_nil],
      by norm_num [load_stock_data, List.cons_ne_nil]⟩,
    start_timer_not_reset _ 1 (by norm_num)
      (by norm_num [load_stock_data, initState, List.cons_ne_nil])
      (by norm_num [load_stock_data, List.cons_ne_nil])
      (by norm_num [load_stock_data, List.cons_ne_nil])⟩

/-- Claim C9: the continuous linear policy maps the baseline value to
exactly the base frequency (when the base lies inside the clamp bounds)
and always outputs a frequency within `[fMin, fMax]`. -/
theorem linear_mapper_policy (value firstValue baseFrequency sensitivity fMin fMax : ℚ)
    (h1 : fMin ≤ baseFrequency) (h2 : baseFrequency ≤ fMax) :
    linear_map_frequency firstValue firstValue baseFrequency sensitivity fMin fMax
        = baseFrequency
    ∧ fMin ≤ linear_map_frequency value firstValue baseFrequency sensitivity fMin fMax
    ∧ linear_map_frequency value firstValue baseFrequency sensitivity fMin fMax ≤ fMax := by
  refine ⟨?_, le_max_left _ _, ?_⟩
  · simp only [linear_map_frequency]
    have hpct : (if firstValue = 0 then (0 : ℚ)
        else (firstValue - firstValue) / firstValue) = 0 := by
      split
      · rfl
      · rw [sub_self, zero_div]
    rw [hpct, zero_mul, add_zero, mul_one, min_eq_right h2, max_eq_right h1]
  · simp only [linear_map_frequency]
    exact max_le (le_trans h1 h2) (min_le_left _ _)

/-- Witness for C9 at the spec's linear scenario: `value = 90`,
`firstValue = 100`, `base = 220`, `sensitivity = 2`, bounds `[50, 2000]`. -/
theorem linear_mapper_policy_w :
    ((50 : ℚ) ≤ 220 ∧ (220 : ℚ) ≤ 2000)
    ∧ (linear_map_frequency 100 100 220 2 50 2000 = 220
      ∧ 50 ≤ linear_map_frequency 90 100 220 2 50 2000
      ∧ linear_map_frequency 90 100 220 2 50 2000 ≤ 2000) :=
  ⟨⟨by norm_num, by norm_num⟩,
    linear_mapper_policy 90 100 220 2 50 2000 (by norm_num) (by norm_num)⟩
